import Mathlib

/-!
# Verification of the jepsen-rs generation / fault-injection core

A shallow embedding, in Lean 4, of the parts of the `jepsen-rs` repository
that the specification's testable properties talk about:

* the history log and its push operations (`src/history.rs`),
* the nemesis register and its eviction strategies (`src/nemesis/register.rs`),
* the global id-allocation pool (`src/generator/context.rs`),
* the generator stream combinators (`src/generator/mod.rs`, `src/utils/iter.rs`),
* the `GeneratorGroup` Chain strategy (modelled from the spec; the
  implementation file `generator/controller.rs` is not part of the sources),
* the `ValidType` verdict (de)serialization (`src/checker/mod.rs`).

Conventions used throughout the embedding:

* Rust `u64` / `usize` values are modelled as `Nat` (none of the verified
  properties involve overflow).
* Rust `Vec<T>` and `VecDeque<T>` are modelled as `List T`.
* Fallible / panicking code paths (`assert!`, `unreachable!`) are modelled by
  `Option`-returning functions, `none` standing for the panic; a panic aborts
  the run, leaving previously written state unchanged.
* `madsim` wall-clock timestamps are passed in explicitly as `Nat` arguments
  (virtual-clock nanoseconds); no verified property inspects their values.
* The thread-local random draw of `madsim::rand::thread_rng().gen_range(0..len)`
  is modelled by an oracle argument `c : Nat` reduced modulo the (always
  positive) queue length, so that every in-range index is reachable.
-/

namespace JepsenRs

/-! ## Op model

`op.rs` is referenced by the sources (`mod op;` in `lib.rs`) but is not among
the source files; the variants below are those given in the spec's data model
and exercised by the repository's own tests
(`Op::Read(key, Option<value>)`, `Op::Write(key, value)`, `Op::Txn(Vec<Op>)`).
-/

/-- Modelled from the spec: the recursive client-operation value type of
`op.rs` (not under `src/`): `Read(key, optional value)`, `Write(key, value)`,
`Txn(ordered sequence of Op)`. -/
inductive Op : Type where
  | read (key : Nat) (value : Option Nat)
  | write (key : Nat) (value : Nat)
  | txn (ops : List Op)
  deriving Repr

/-- Modelled from the spec: the operation label type (`OpFunctionType` of
`op.rs`, not under `src/`); the history's `:f` field stores the
operation/nemesis label. -/
inductive OpFunctionType : Type where
  | read
  | write
  | txn
  deriving Repr, DecidableEq

/-- Modelled from the spec: the label (`:f` value) of an `Op`, i.e. the
`From<&Op> for OpFunctionType` conversion of `op.rs` (not under `src/`). -/
def opFunctionType : Op → OpFunctionType
  | .read _ _ => .read
  | .write _ _ => .write
  | .txn _ => .txn

/-! ## Nemesis model (`src/nemesis/mod.rs`) -/

/-- Embeds `ServerId` (`src/nemesis/mod.rs`): `pub type ServerId = u64`. -/
abbrev ServerId := Nat

/-- Embeds `NemesisType` (`src/nemesis/mod.rs`): fault intents.  `HashSet<ServerId>`
payloads are modelled as lists (no verified property inspects them). -/
inductive NemesisType : Type where
  | noop
  | kill (servers : List ServerId)
  | pause (servers : List ServerId)
  | splitOne (server : ServerId)
  | partitionHalves (servers : List ServerId)
  | partitionRandomN (n : Nat)
  | partitionMajoritiesRing
  | partitionLeaderAndMajority
  | leaderSendToMajorityButCannotReceive
  deriving Repr, DecidableEq

/-- Embeds `NemesisRecord` (`src/nemesis/mod.rs`): fault effects; the `Net` payload
(`HashMap<ServerId, HashSet<ServerId>>`) is modelled as an association list. -/
inductive NemesisRecord : Type where
  | noop
  | kill (servers : List ServerId)
  | pause (servers : List ServerId)
  | net (record : List (ServerId × List ServerId))
  deriving Repr, DecidableEq

/-- Embeds `NemesisGen` (`src/nemesis/mod.rs`): the union of a fault intent to
execute and a fault record to recover (the spec calls it `AllNemesis`). -/
inductive NemesisGen : Type where
  | execute (t : NemesisType)
  | recover (r : NemesisRecord)
  deriving Repr, DecidableEq

/-- Embeds `SerializableNemesisType` (`src/nemesis/mod.rs`): coarse classification
used for history encoding. -/
inductive SerializableNemesisType : Type where
  | bitflipWal
  | bitflipSnap
  | truncateWal
  | pause
  | kill
  | partition
  | clock
  | join
  | start
  | resume
  deriving Repr, DecidableEq

/-- Embeds `From<&NemesisType> for SerializableNemesisType` (`src/nemesis/mod.rs`).
The `Noop` arm is `unreachable!` ("Noop will not be recorded to history");
the panic is modelled as `none`. -/
def serializableOfNemesisType : NemesisType → Option SerializableNemesisType
  | .noop => none
  | .kill _ => some .kill
  | .pause _ => some .pause
  | .splitOne _ | .partitionHalves _ | .partitionRandomN _
  | .partitionMajoritiesRing | .partitionLeaderAndMajority
  | .leaderSendToMajorityButCannotReceive => some .partition

/-- Embeds `From<&NemesisRecord> for SerializableNemesisType` (`src/nemesis/mod.rs`);
the `Noop` arm is `unreachable!`, modelled as `none`. -/
def serializableOfNemesisRecord : NemesisRecord → Option SerializableNemesisType
  | .noop => none
  | .kill _ => some .resume
  | .pause _ => some .start
  | .net _ => some .join

/-- Embeds `From<&NemesisGen> for SerializableNemesisType` (`src/nemesis/mod.rs`). -/
def serializableOfNemesisGen : NemesisGen → Option SerializableNemesisType
  | .execute t => serializableOfNemesisType t
  | .recover r => serializableOfNemesisRecord r

/-! ## History log (`src/history.rs`) -/

/-- Embeds `ErrorType` (`src/history.rs`): `pub type ErrorType = Vec<String>`. -/
abbrev ErrorType := List String

/-- Embeds `HistoryType` (`src/history.rs`). -/
inductive HistoryType : Type where
  | invoke
  | ok
  | fail
  | info
  deriving Repr, DecidableEq

/-- Embeds `HistoryProcess` (`src/history.rs`): the nemesis pseudo-process or a
numeric generator process id. -/
inductive HistoryProcess : Type where
  | nemesis
  | gen (id : Nat)
  deriving Repr, DecidableEq

/-- Embeds `OpOrNemesisFuncType`: the `:f` label of a history entry, an operation
label or a nemesis classification (declared in `op.rs`, not under `src/`, but
fully determined by its uses in `src/history.rs`). -/
inductive OpOrNemesisFuncType : Type where
  | op (f : OpFunctionType)
  | nemesis (f : SerializableNemesisType)
  deriving Repr, DecidableEq

/-- Embeds `HistoryValue` (`src/history.rs`): a string payload (nemesis description)
or an `Op` payload.  The string produced by `String::from(NemesisGen)` renders
hash sets through `serde_json` in nondeterministic order, so the string payload
is modelled by the `NemesisGen` value it is rendered from. -/
inductive HistoryValue : Type where
  | str (g : NemesisGen)
  | op (o : Op)
  deriving Repr

/-- Embeds `SerializableHistory` (`src/history.rs`): one history entry. -/
structure SerializableHistory : Type where
  index : Nat
  type_ : HistoryType
  f : OpOrNemesisFuncType
  value : HistoryValue
  time : Nat
  process : HistoryProcess
  error : Option ErrorType
  deriving Repr

/-- Embeds `SerializableHistoryList` (`src/history.rs`): the append-only log. -/
abbrev SerializableHistoryList := List SerializableHistory

/-- Embeds `SerializableHistoryList::push_invoke` (`src/history.rs`): appends an
`Invoke` entry with `index = self.0.len()`, the op's label, the given process
and no error.  The timestamp is passed in explicitly (see the header). -/
def push_invoke (l : SerializableHistoryList) (time : Nat) (process : Nat)
    (value : Op) : SerializableHistoryList :=
  l ++ [{ index := l.length
          type_ := .invoke
          f := .op (opFunctionType value)
          value := .op value
          time := time
          process := .gen process
          error := none }]

/-- Embeds `SerializableHistoryList::push_result` (`src/history.rs`): asserts
`(result_type == Ok) == error.is_none()` (panic modelled as `none`, log
unchanged), then appends an entry with `index = self.0.len()` carrying the
given result type, process and error. -/
def push_result (l : SerializableHistoryList) (time : Nat) (process : Nat)
    (result_type : HistoryType) (value : Op) (error : Option ErrorType) :
    Option SerializableHistoryList :=
  if (result_type == HistoryType.ok) = error.isNone then
    some (l ++ [{ index := l.length
                  type_ := result_type
                  f := .op (opFunctionType value)
                  value := .op value
                  time := time
                  process := .gen process
                  error := error }])
  else
    none

/-- Embeds `SerializableHistoryList::push_nemesis` (`src/history.rs`): appends an
`Info` entry for the nemesis pseudo-process with `index = self.0.len()` and no
error.  The `:f` classification panics (`unreachable!`) on `Noop`, modelled as
`none` with the log unchanged. -/
def push_nemesis (l : SerializableHistoryList) (time : Nat) (value : NemesisGen) :
    Option SerializableHistoryList :=
  (serializableOfNemesisGen value).map fun s =>
    l ++ [{ index := l.length
            type_ := .info
            f := .nemesis s
            value := .str value
            time := time
            process := .nemesis
            error := none }]

/-- One call against the shared history log: the three push operations of
`src/history.rs`, with their timestamp argument made explicit. -/
inductive HistoryCmd : Type where
  | invoke (time : Nat) (process : Nat) (op : Op)
  | result (time : Nat) (process : Nat) (result_type : HistoryType) (op : Op)
      (error : Option ErrorType)
  | nemesis (time : Nat) (value : NemesisGen)

/-- Executes one push call; `none` is a panic. -/
def stepHistory (l : SerializableHistoryList) :
    HistoryCmd → Option SerializableHistoryList
  | .invoke t p op => some (push_invoke l t p op)
  | .result t p rt op err => push_result l t p rt op err
  | .nemesis t v => push_nemesis l t v

/-- Runs a sequence of push calls from a given log; a panicking call aborts the
run, leaving the log as it was just before the panic. -/
def runHistory (l : SerializableHistoryList) : List HistoryCmd → SerializableHistoryList
  | [] => l
  | c :: cs =>
    match stepHistory l c with
    | none => l
    | some l' => runHistory l' cs

/-- The forward half of the spec's ok/error invariant, for a single appended
entry list. -/
def OkImpliesNoError (l : SerializableHistoryList) : Prop :=
  ∀ e ∈ l, e.type_ = HistoryType.ok → e.error = none

/-! ## Nemesis register (`src/nemesis/register.rs`) -/

/-- Embeds `NemesisRegisterStrategy` (`src/nemesis/register.rs`). -/
inductive NemesisRegisterStrategy : Type where
  | fifo (maxSize : Nat)
  | randomQueue (maxSize : Nat)
  deriving Repr, DecidableEq

/-- Embeds `NemesisRegister` (`src/nemesis/register.rs`): an order-preserving queue
of active fault records plus an eviction strategy (the `VecDeque` is modelled
as a list, front first). -/
structure NemesisRegister (T : Type) where
  queue : List T
  strategy : NemesisRegisterStrategy
  deriving Repr, DecidableEq

/-- Embeds `NemesisRegister::put` (`src/nemesis/register.rs`): appends `n` to the
back of the queue; if the queue now exceeds the strategy's `max_size`, evicts
the front (FIFO) or the entry at a random index (RandomQueue) and returns it
as the record to recover.  The random draw `gen_range(0..len)` is modelled by
the oracle `c` taken modulo the (positive) queue length. -/
def NemesisRegister.put {T : Type} (r : NemesisRegister T) (c : Nat) (n : T) :
    (T × Option T) × NemesisRegister T :=
  let q := r.queue ++ [n]
  match r.strategy with
  | .fifo maxSize =>
    if q.length ≤ maxSize then ((n, none), { r with queue := q })
    else
      match q with
      -- dead arm: `q` ends in `n`, so `pop_front().unwrap()` cannot panic
      | [] => ((n, none), { r with queue := [] })
      | front :: rest => ((n, some front), { r with queue := rest })
  | .randomQueue maxSize =>
    if q.length ≤ maxSize then ((n, none), { r with queue := q })
    else ((n, q[c % q.length]?), { r with queue := q.eraseIdx (c % q.length) })

/-- Runs a sequence of `put` calls: returns the `(executed, to-recover)` pairs
in call order and the final register.  `cs` supplies the random oracle, one
draw per call. -/
def runRegister {T : Type} : NemesisRegister T → List T → List Nat →
    List (T × Option T) × NemesisRegister T
  | r, [], _ => ([], r)
  | r, x :: xs, cs =>
    ((r.put (cs.headD 0) x).1 ::
        (runRegister (r.put (cs.headD 0) x).2 xs cs.tail).1,
     (runRegister (r.put (cs.headD 0) x).2 xs cs.tail).2)

/-- The register states after each `put` of a run, in call order. -/
def registerTrace {T : Type} : NemesisRegister T → List T → List Nat →
    List (NemesisRegister T)
  | _, [], _ => []
  | r, x :: xs, cs =>
    (r.put (cs.headD 0) x).2 ::
      registerTrace (r.put (cs.headD 0) x).2 xs cs.tail

/-! ## Global context id allocation (`src/generator/context.rs`)

`Global.thread_pool` is a `BTreeMap<GeneratorId, NodeHandle>`; id allocation
only inspects its key set, iterated in ascending order.  The pool is therefore
modelled as its strictly sorted key list; the `NodeHandle` values play no role
in allocation and are not modelled. -/

/-- The enumerate-and-compare loop inside `Global::get_next_id`
(`src/generator/context.rs`): walks the ascending keys with a running index,
returning the first index that differs from its key, else the pool size. -/
def getNextIdFrom : Nat → List Nat → Nat
  | i, [] => i
  | i, id :: rest => if i ≠ id then i else getNextIdFrom (i + 1) rest

/-- Embeds `Global::get_next_id` (`src/generator/context.rs`): the minimal usable id
in the thread pool. -/
def get_next_id (pool : List Nat) : Nat :=
  getNextIdFrom 0 pool

/-- Embeds `Global::alloc_new_generator` (`src/generator/context.rs`): allocates
`get_next_id` and inserts it into the pool (the `BTreeMap` insert keeps the
key list sorted). -/
def alloc_new_generator (pool : List Nat) : Nat × List Nat :=
  let id := get_next_id pool
  (id, List.orderedInsert (· ≤ ·) id pool)

/-- Embeds `Global::free_generator` (`src/generator/context.rs`): removes the id
from the pool. -/
def free_generator (pool : List Nat) (id : Nat) : List Nat :=
  pool.erase id

/-! ## Generator and stream combinators (`src/generator/mod.rs`,
`src/utils/iter.rs`)

A `tokio_stream::Stream` is a pull-based, possibly infinite, possibly ending
sequence; it is modelled as `Stream'.Seq` (Mathlib's possibly-infinite
sequences), with `next()` as `Seq.destruct`.  `Stream::filter` is a partial
operation (its `next()` need not terminate on an infinite stream), so the
`map`/`filter`/`take` combinator chain is modelled on finite materializations
of the stream (`List`), the instantiation the repository itself exercises
(`Generator<T>` at `T = tokio_stream::Iter`). -/

open Stream'

/-- Modelled from the spec: `DelayStrategy` (`generator/controller.rs`, not
under `src/`), the pacing policy between `next()` calls.  The claims verified
here use only that fresh generators carry the default strategy, so it is
modelled as a single-valued type. -/
inductive DelayStrategy : Type where
  | default
  deriving Repr, DecidableEq

/-- Embeds `Generator` (`src/generator/mod.rs`): a process identity, a reference to
the run's `Global` context (modelled by the `Arc` pointer's identity: equal
`global` fields mean the same shared reference), a lazy sequence, and a
pacing strategy.  `σ` is the sequence representation, mirroring the `T:
Stream` type parameter. -/
structure Generator (σ : Type) : Type where
  id : Nat
  global : Nat
  seq : σ
  delay_strategy : DelayStrategy
  deriving Repr, DecidableEq

/-- Embeds `Generator::new_with_id` (`src/generator/mod.rs`): wraps a sequence with
an explicit id and Global reference and the default delay strategy. -/
def Generator.new_with_id {σ : Type} (id : Nat) (global : Nat) (seq : σ) :
    Generator σ :=
  ⟨id, global, seq, .default⟩

/-- Embeds `Generator::map` (`src/generator/mod.rs`):
`Generator::new_with_id(self.id, self.global, self.seq.map(f))`, on the
finite materialization of the stream. -/
def Generator.map {α : Type} (g : Generator (List α)) (f : α → α) :
    Generator (List α) :=
  Generator.new_with_id g.id g.global (g.seq.map f)

/-- Embeds `Generator::filter` (`src/generator/mod.rs`):
`Generator::new_with_id(self.id, self.global, self.seq.filter(f))`, on the
finite materialization of the stream. -/
def Generator.filter {α : Type} (g : Generator (List α)) (f : α → Bool) :
    Generator (List α) :=
  Generator.new_with_id g.id g.global (g.seq.filter f)

/-- Embeds `Generator::take` (`src/generator/mod.rs`):
`Generator::new_with_id(self.id, self.global, self.seq.take(n))`, on the
finite materialization of the stream. -/
def Generator.take {α : Type} (g : Generator (List α)) (n : Nat) :
    Generator (List α) :=
  Generator.new_with_id g.id g.global (g.seq.take n)

/-- Embeds `ExtraStreamExt::split_at` (`src/utils/iter.rs`): pulls up to `n` items
from the stream into a buffer, stopping early if the stream ends, and leaves
the stream advanced past the pulled items; returns the buffer paired with the
advanced stream state (in Rust the advanced state is `self`, mutated in
place). -/
def split_at_pull {α : Type} : Nat → Seq α → List α × Seq α
  | 0, s => ([], s)
  | n + 1, s =>
    match s.destruct with
    | none => ([], s)
    | some (x, s') =>
      ((x :: (split_at_pull n s').1), (split_at_pull n s').2)

/-- Embeds `Generator::split_at` (`src/generator/mod.rs`): eagerly pulls the first
up-to-`n` items via `ExtraStreamExt::split_at`, returning a finite head
generator over the pulled items and a tail generator over the remaining
stream, both keeping `self.id` and `self.global`. -/
def Generator.split_at {α : Type} (g : Generator (Seq α)) (n : Nat) :
    Generator (Seq α) × Generator (Seq α) :=
  (Generator.new_with_id g.id g.global (Seq.ofList (split_at_pull n g.seq).1),
   Generator.new_with_id g.id g.global (split_at_pull n g.seq).2)

/-- Embeds `GeneratorGroup` (`src/generator/mod.rs`): an ordered collection of
generators merged under a scheduling strategy. -/
structure GeneratorGroup (σ : Type) : Type where
  gens : List (Generator σ)
  deriving Repr, DecidableEq

/-- Modelled from the spec: the Chain scheduling strategy of `GeneratorGroup`
together with `collect` (implemented in `generator/controller.rs` and the
missing parts of `generator/mod.rs`, not under `src/`): "fully drains
generator 1, then generator 2, etc., in the order supplied; order of output
is generator-major then per-generator sequence order", with `collect`
draining the merged stream into an ordered list. -/
def GeneratorGroup.collectChain {α : Type} (gr : GeneratorGroup (List α)) :
    List α :=
  (gr.gens.map Generator.seq).flatten

/-! ## Checker verdict (`src/checker/mod.rs`) -/

/-- The fragment of `serde_json::Value` relevant to the hand-written
`Deserialize`/`Serialize` implementations of `ValidType`
(`src/checker/mod.rs`): booleans, strings, and the remaining shapes that the
deserializer rejects wholesale. -/
inductive JsonValue : Type where
  | null
  | bool (b : Bool)
  | num (n : Int)
  | str (s : String)
  | arr (xs : List JsonValue)
  | obj (fields : List (String × JsonValue))

/-- Embeds `ValidType` (`src/checker/mod.rs`): the `:valid?` verdict. -/
inductive ValidType : Type where
  | True
  | False
  | Unknown
  deriving Repr, DecidableEq

/-- Embeds `impl Serialize for ValidType` (`src/checker/mod.rs`): `True ↦ true`,
`False ↦ false`, `Unknown ↦ ":unknown"`. -/
def ValidType.serialize : ValidType → JsonValue
  | .True => .bool true
  | .False => .bool false
  | .Unknown => .str ":unknown"

/-- Embeds `impl Deserialize for ValidType` (`src/checker/mod.rs`): a boolean maps
to `True`/`False`, the string `":unknown"` maps to `Unknown`, any other
string fails with "invalid string value", and any non-boolean non-string
value fails with "invalid type". -/
def ValidType.deserialize : JsonValue → Except String ValidType
  | .bool b => .ok (if b then .True else .False)
  | .str s => if s = ":unknown" then .ok .Unknown else .error "invalid string value"
  | _ => .error "invalid type"

/-- Returns `true` exactly on the JSON shapes the `ValidType` deserializer accepts a
prefix of (booleans and strings). -/
def JsonValue.isBoolOrStr : JsonValue → Bool
  | .bool _ => true
  | .str _ => true
  | _ => false

/-! ### History invariants (claims C1, C2, C6) -/

/-- Appending one entry whose `index` is the current length preserves the
"indices are `0, 1, …, len-1`" invariant. -/
theorem map_index_append_entry (l : SerializableHistoryList) (e : SerializableHistory)
    (hi : e.index = l.length)
    (h : l.map SerializableHistory.index = List.range l.length) :
    (l ++ [e]).map SerializableHistory.index = List.range (l ++ [e]).length := by
  simp [List.range_succ, h, hi]

/-- Shape of a successful push call: it appends exactly one entry, whose
`index` is the log length at insertion time and which carries no error unless
its type is a result type matching the assertion. -/
theorem stepHistory_eq_some {l l' : SerializableHistoryList} {c : HistoryCmd}
    (h : stepHistory l c = some l') :
    ∃ e : SerializableHistory, e.index = l.length ∧
      (e.type_ = HistoryType.ok → e.error = none) ∧ l' = l ++ [e] := by
  match c with
  | .invoke t p op =>
    simp only [stepHistory] at h
    refine ⟨_, ?_, ?_, (Option.some.inj h).symm⟩
    · rfl
    · exact fun hc => HistoryType.noConfusion hc
  | .result t p rt op err =>
    simp only [stepHistory] at h
    unfold push_result at h
    by_cases hb : (rt == HistoryType.ok) = err.isNone
    · rw [if_pos hb] at h
      refine ⟨_, ?_, ?_, (Option.some.inj h).symm⟩
      · rfl
      · intro hok
        have hrt : rt = HistoryType.ok := hok
        subst hrt
        have hn : err.isNone = true := by rw [← hb]; rfl
        exact Option.isNone_iff_eq_none.1 hn
    · rw [if_neg hb] at h
      cases h
  | .nemesis t v =>
    simp only [stepHistory] at h
    unfold push_nemesis at h
    cases hs : serializableOfNemesisGen v with
    | none => rw [hs] at h; cases h
    | some s =>
      rw [hs] at h
      simp only [Option.map_some'] at h
      refine ⟨_, ?_, ?_, (Option.some.inj h).symm⟩
      · rfl
      · exact fun hc => HistoryType.noConfusion hc

/-- Every log reachable by a run of push calls from a well-indexed log is
well-indexed. -/
theorem runHistory_map_index (cmds : List HistoryCmd) :
    ∀ l : SerializableHistoryList,
      l.map SerializableHistory.index = List.range l.length →
      (runHistory l cmds).map SerializableHistory.index
        = List.range (runHistory l cmds).length := by
  induction cmds with
  | nil => intro l h; exact h
  | cons c cs ih =>
    intro l h
    rcases hs : stepHistory l c with _ | l'
    · simp only [runHistory, hs]
      exact h
    · simp only [runHistory, hs]
      obtain ⟨e, hi, _, rfl⟩ := stepHistory_eq_some hs
      exact ih _ (map_index_append_entry _ _ hi h)

/-- C1: for every sequence of calls to `push_invoke`, `push_result` and
`push_nemesis` starting from the empty log, each appended entry's `index` is
the length of the log at insertion time, so the `index` fields of the finished
log read `0, 1, 2, …, len-1` in append order. -/
theorem history_index_monotonic (cmds : List HistoryCmd) :
    (runHistory [] cmds).map SerializableHistory.index
      = List.range (runHistory [] cmds).length :=
  runHistory_map_index cmds [] rfl

theorem okImpliesNoError_append (l : SerializableHistoryList) (e : SerializableHistory)
    (hl : OkImpliesNoError l) (he : e.type_ = HistoryType.ok → e.error = none) :
    OkImpliesNoError (l ++ [e]) := by
  intro x hx
  rcases List.mem_append.1 hx with hx | hx
  · exact hl x hx
  · rcases List.mem_singleton.1 hx with rfl
    exact he

theorem runHistory_okImpliesNoError (cmds : List HistoryCmd) :
    ∀ l : SerializableHistoryList, OkImpliesNoError l →
      OkImpliesNoError (runHistory l cmds) := by
  induction cmds with
  | nil => intro l h; exact h
  | cons c cs ih =>
    intro l h
    rcases hs : stepHistory l c with _ | l'
    · simp only [runHistory, hs]
      exact h
    · simp only [runHistory, hs]
      obtain ⟨e, _, he, rfl⟩ := stepHistory_eq_some hs
      exact ih _ (okImpliesNoError_append _ _ h he)

/-- C2 (counterexample): the claimed biconditional `type == Ok ⇔ error
absent` fails on the log produced by a single `push_invoke` call: the `Invoke`
entry has no error yet its type is not `Ok`. -/
theorem history_ok_iff_counterexample :
    ¬ ∀ e ∈ runHistory [] [HistoryCmd.invoke 0 0 (Op.read 1 none)],
        (e.type_ = HistoryType.ok ↔ e.error = none) := by
  intro h
  have hmem : ({ index := 0, type_ := .invoke, f := .op .read,
                 value := .op (.read 1 none), time := 0, process := .gen 0,
                 error := none } : SerializableHistory)
      ∈ runHistory [] [HistoryCmd.invoke 0 0 (Op.read 1 none)] :=
    List.mem_singleton_self _
  have := (h _ hmem).mpr rfl
  exact HistoryType.noConfusion this

/-- C2 (amended): for every history log produced by any sequence of
`push_invoke`, `push_result` and `push_nemesis` calls, every entry whose type
is `Ok` has an absent error field (the converse direction of the spec's
biconditional fails for `Invoke` and nemesis `Info` entries, which also carry
no error). -/
theorem history_ok_implies_no_error (cmds : List HistoryCmd)
    (e : SerializableHistory) (he : e ∈ runHistory [] cmds)
    (hok : e.type_ = HistoryType.ok) : e.error = none :=
  runHistory_okImpliesNoError cmds [] (by intro x hx; cases hx) e he hok

/-- Witness for `history_ok_implies_no_error` at a concrete run. -/
theorem history_ok_implies_no_error_witness :
    ({ index := 0, type_ := .ok, f := .op .read, value := .op (.read 1 none),
       time := 0, process := .gen 0, error := none } : SerializableHistory).error
      = none :=
  history_ok_implies_no_error
    [HistoryCmd.result 0 0 HistoryType.ok (Op.read 1 none) none] _
    (List.mem_singleton_self _) rfl

/-- C6: `push_result` appends exactly one entry carrying the given result
type, process and error precisely when `(result_type == Ok) == (error is
absent)`; otherwise the assertion fires (modelled by `none`) and the log is
unchanged. -/
theorem push_result_assertion_spec (l : SerializableHistoryList) (t p : Nat)
    (rt : HistoryType) (op : Op) (err : Option ErrorType) :
    push_result l t p rt op err =
      if (rt = HistoryType.ok) ↔ (err = none) then
        some (l ++ [{ index := l.length, type_ := rt,
                      f := .op (opFunctionType op), value := .op op,
                      time := t, process := .gen p, error := err }])
      else none := by
  cases rt <;> rcases err with _ | e <;> simp [push_result]

/-! ### Register behaviour (claims C3, C4) -/

/-- Lemma: `put` under FIFO, as a single equation. -/
theorem put_fifo_eq {T : Type} (k c : Nat) (q : List T) (x : T) :
    (⟨q, .fifo k⟩ : NemesisRegister T).put c x =
      if q.length + 1 ≤ k then ((x, none), ⟨q ++ [x], .fifo k⟩)
      else ((x, (q ++ [x]).head?), ⟨(q ++ [x]).tail, .fifo k⟩) := by
  cases q with
  | nil => by_cases h : 1 ≤ k <;> simp [NemesisRegister.put, h]
  | cons y q0 =>
    by_cases h : q0.length + 1 + 1 ≤ k <;>
      simp [NemesisRegister.put, h]

/-- Lemma: `put` under RandomQueue, as a single equation. -/
theorem put_random_eq {T : Type} (k c : Nat) (q : List T) (x : T) :
    (⟨q, .randomQueue k⟩ : NemesisRegister T).put c x =
      if q.length + 1 ≤ k then ((x, none), ⟨q ++ [x], .randomQueue k⟩)
      else ((x, (q ++ [x])[c % (q.length + 1)]?),
            ⟨(q ++ [x]).eraseIdx (c % (q.length + 1)), .randomQueue k⟩) := by
  by_cases h : q.length + 1 ≤ k <;>
    simp [NemesisRegister.put, h]

/-- FIFO run, generalized over a start queue that is within bounds: the
results echo the inserted records; the `m`-th call (counting the records
already in the queue) evicts nothing while the total stays within `k` and
otherwise evicts the oldest still-queued record, which is the record inserted
`k` positions earlier; the final queue holds the last `k` records. -/
theorem runRegister_fifo_general {T : Type} (k : Nat) (xs : List T) :
    ∀ (cs : List Nat) (q : List T), q.length ≤ k →
      (runRegister ⟨q, .fifo k⟩ xs cs).1.map Prod.fst = xs ∧
      (runRegister ⟨q, .fifo k⟩ xs cs).1.map Prod.snd
        = (List.range xs.length).map
            (fun m => if q.length + m < k then none else (q ++ xs)[q.length + m - k]?) ∧
      (runRegister ⟨q, .fifo k⟩ xs cs).2.queue
        = (q ++ xs).drop (q.length + xs.length - k) := by
  induction xs with
  | nil =>
    intro cs q hq
    refine ⟨rfl, rfl, ?_⟩
    simp [runRegister, Nat.sub_eq_zero_of_le hq]
  | cons x xs ih =>
    intro cs q hq
    by_cases hl : q.length + 1 ≤ k
    · -- within bounds: no eviction
      obtain ⟨ih1, ih2, ih3⟩ := ih cs.tail (q ++ [x]) (by simpa using hl)
      simp only [runRegister, put_fifo_eq, if_pos hl]
      refine ⟨by simpa using ih1, ?_, ?_⟩
      · simp only [List.length_cons, List.range_succ_eq_map, List.map_cons,
          List.map_map]
        rw [ih2]
        refine List.cons_eq_cons.mpr ⟨?_, ?_⟩
        · rw [if_pos (show q.length + 0 < k from by omega)]
        · apply List.map_congr_left
          intro m _
          simp only [Function.comp_apply, Nat.succ_eq_add_one,
            List.length_append, List.length_singleton, List.append_assoc,
            List.singleton_append]
          rw [show q.length + 1 + m = q.length + (m + 1) from by omega]
      · simp only [List.length_cons]
        rw [ih3]
        simp only [List.length_append, List.length_singleton, List.append_assoc,
          List.singleton_append]
        rw [show q.length + 1 + xs.length = q.length + (xs.length + 1) from by omega]
    · -- eviction: the queue was full (length exactly `k`)
      rcases q with _ | ⟨y, q0⟩
      · -- `k = 0`: the just-inserted record is itself evicted
        have hk : k = 0 := by simpa using hl
        subst hk
        obtain ⟨ih1, ih2, ih3⟩ := ih cs.tail [] (by simp)
        simp only [runRegister, put_fifo_eq, List.nil_append, List.length_nil] at ih1 ih2 ih3 ⊢
        rw [if_neg (show ¬(0 + 1 ≤ 0) from by omega)]
        refine ⟨by simpa using ih1, ?_, ?_⟩
        · simp only [List.length_cons, List.range_succ_eq_map, List.map_cons,
            List.map_map, List.head?_cons, List.tail_cons]
          rw [ih2]
          refine List.cons_eq_cons.mpr ⟨?_, ?_⟩
          · simp
          · apply List.map_congr_left
            intro m _
            simp [Nat.succ_eq_add_one]
        · simp only [List.length_cons, List.tail_cons]
          rw [ih3]
          simp
      · -- nonempty queue of length `k`: the front record `y` is evicted
        have hk : q0.length + 1 = k := by
          simp only [List.length_cons] at hq hl
          omega
        obtain ⟨ih1, ih2, ih3⟩ := ih cs.tail (q0 ++ [x])
          (by simp; omega)
        simp only [runRegister, put_fifo_eq, List.cons_append, List.head?_cons,
          List.tail_cons] at ih1 ih2 ih3 ⊢
        rw [if_neg hl]
        refine ⟨by simpa using ih1, ?_, ?_⟩
        · simp only [List.length_cons, List.range_succ_eq_map, List.map_cons,
            List.map_map]
          rw [ih2]
          refine List.cons_eq_cons.mpr ⟨?_, ?_⟩
          · rw [if_neg (show ¬(q0.length + 1 + 0 < k) from by omega)]
            rw [show q0.length + 1 + 0 - k = 0 from by omega]
            simp
          · apply List.map_congr_left
            intro m _
            simp only [Function.comp_apply, Nat.succ_eq_add_one,
              List.length_cons, List.length_append, List.length_singleton,
              List.length_nil, Nat.zero_add, List.append_assoc,
              List.singleton_append]
            rw [if_neg (by omega), if_neg (by omega)]
            rw [show q0.length + 1 + (m + 1) - k = m + 1 from by omega,
              show q0.length + 1 + m - k = m from by omega]
            simp
        · simp only [List.length_cons]
          rw [ih3]
          simp only [List.length_cons, List.length_append, List.length_singleton,
            List.length_nil, Nat.zero_add, List.append_assoc,
            List.singleton_append]
          rw [show q0.length + 1 + xs.length - k = xs.length from by omega,
            show q0.length + 1 + (xs.length + 1) - k = xs.length + 1 from by omega]
          simp [List.drop_succ_cons]

/-- C3: on a FIFO(k) register starting from the empty queue, each put echoes
its record; the `m`-th put (0-based) evicts nothing for `m < k` — so each of
the first `k` puts returns no record to recover and the `(k+1)`-th put
produces the first eviction — and otherwise evicts `xs[m-k]`, the earliest
record still in the queue (records are evicted in insertion order, oldest
first); the final queue holds the last `min(k, len)` records. -/
theorem fifo_register_spec {T : Type} (k : Nat) (xs : List T) (cs : List Nat) :
    (runRegister ⟨[], .fifo k⟩ xs cs).1.map Prod.fst = xs ∧
    (runRegister ⟨[], .fifo k⟩ xs cs).1.map Prod.snd
      = (List.range xs.length).map (fun m => if m < k then none else xs[m - k]?) ∧
    (runRegister ⟨[], .fifo k⟩ xs cs).2.queue = xs.drop (xs.length - k) := by
  have h := runRegister_fifo_general k xs cs [] (by simp)
  simpa using h

/-- RandomQueue run, generalized over a start queue within bounds: all
intermediate queue lengths stay `≤ k`, and every evicted record was a member
of the queue just after the new record was appended (pre-call queue plus the
new record). -/
theorem runRegister_random_general {T : Type} (k : Nat) (xs : List T) :
    ∀ (cs : List Nat) (q : List T), q.length ≤ k →
      (∀ r ∈ registerTrace ⟨q, .randomQueue k⟩ xs cs, r.queue.length ≤ k) ∧
      (∀ pr ∈ (runRegister ⟨q, .randomQueue k⟩ xs cs).1.zip
          ((⟨q, .randomQueue k⟩ : NemesisRegister T) ::
            registerTrace ⟨q, .randomQueue k⟩ xs cs),
        ∀ e, pr.1.2 = some e → e ∈ pr.2.queue ++ [pr.1.1]) := by
  induction xs with
  | nil =>
    intro cs q hq
    constructor
    · intro r hr
      simp [registerTrace] at hr
    · intro pr hpr
      simp [runRegister] at hpr
  | cons x xs ih =>
    intro cs q hq
    by_cases hl : q.length + 1 ≤ k
    · have hput := put_random_eq k (cs.headD 0) q x
      rw [if_pos hl] at hput
      obtain ⟨ihA, ihB⟩ := ih cs.tail (q ++ [x]) (by simpa using hl)
      constructor
      · intro r hr
        simp only [registerTrace, hput] at hr
        rcases List.mem_cons.1 hr with rfl | hr
        · simpa using hl
        · exact ihA r hr
      · intro pr hpr
        simp only [runRegister, registerTrace, hput, List.zip_cons_cons] at hpr
        rcases List.mem_cons.1 hpr with rfl | hpr
        · intro e he
          exact Option.noConfusion he
        · exact ihB pr hpr
    · have hput := put_random_eq k (cs.headD 0) q x
      rw [if_neg hl] at hput
      have hlen : ((q ++ [x]).eraseIdx (cs.headD 0 % (q.length + 1))).length
          = q.length := by
        rw [List.length_eraseIdx]
        simp [Nat.mod_lt _ (show 0 < q.length + 1 from by omega)]
      obtain ⟨ihA, ihB⟩ :=
        ih cs.tail ((q ++ [x]).eraseIdx (cs.headD 0 % (q.length + 1)))
          (by rw [hlen]; omega)
      constructor
      · intro r hr
        simp only [registerTrace, hput] at hr
        rcases List.mem_cons.1 hr with rfl | hr
        · exact le_of_eq_of_le hlen hq
        · exact ihA r hr
      · intro pr hpr
        simp only [runRegister, registerTrace, hput, List.zip_cons_cons] at hpr
        rcases List.mem_cons.1 hpr with rfl | hpr
        · intro e he
          exact List.getElem?_mem he
        · exact ihB pr hpr

/-- C4 (amended): on a RandomQueue(k) register starting from the empty queue,
after every put returns the queue length never exceeds `k`, and every evicted
record was present in the queue immediately after the new record was appended
— that is, it was either present before the call or is the just-inserted
record itself (the spec's contract explicitly allows the eviction of the
just-inserted record, so "present immediately before the call" fails; see the
counterexample). -/
theorem random_register_spec {T : Type} (k : Nat) (xs : List T) (cs : List Nat) :
    (∀ r ∈ registerTrace ⟨[], .randomQueue k⟩ xs cs, r.queue.length ≤ k) ∧
    (∀ pr ∈ (runRegister ⟨[], .randomQueue k⟩ xs cs).1.zip
        ((⟨[], .randomQueue k⟩ : NemesisRegister T) ::
          registerTrace ⟨[], .randomQueue k⟩ xs cs),
      ∀ e, pr.1.2 = some e → e ∈ pr.2.queue ++ [pr.1.1]) :=
  runRegister_random_general k xs cs [] (by simp)

/-- Witness for `random_register_spec`: a concrete RandomQueue(1) run over
`[1, 2]` with oracle `[0, 0]`; the second put evicts `1`, which is in the
pre-call queue `[1]` extended with the new record `2`. -/
theorem random_register_spec_witness :
    (⟨[2], .randomQueue 1⟩ : NemesisRegister Nat).queue.length ≤ 1 ∧
    (1 : Nat) ∈ ([1] : List Nat) ++ [2] :=
  ⟨(random_register_spec 1 [1, 2] [0, 0]).1 _ (by decide),
   (random_register_spec 1 [1, 2] [0, 0]).2 ((2, some 1), ⟨[1], .randomQueue 1⟩)
     (by decide) 1 rfl⟩

/-- C4 (counterexample): on a RandomQueue(1) register, putting `1` then `2`
with a random draw that picks the back of the queue evicts `2` — the
just-inserted record — which was not present in the queue immediately before
that put call (the queue was `[1]`). -/
theorem random_register_counterexample :
    ¬ ∀ pr ∈ (runRegister (⟨[], .randomQueue 1⟩ : NemesisRegister Nat)
          [1, 2] [0, 1]).1.zip
        ((⟨[], .randomQueue 1⟩ : NemesisRegister Nat) ::
          registerTrace ⟨[], .randomQueue 1⟩ [1, 2] [0, 1]),
      ∀ e, pr.1.2 = some e → e ∈ pr.2.queue := by
  intro h
  have := h ((2, some 2), ⟨[1], .randomQueue 1⟩) (by decide) 2 rfl
  exact absurd this (by decide)

/-! ### Id allocation (claim C5) -/

/-- The loop invariant of `get_next_id`: starting the walk at `i` over a
strictly sorted list of keys that are all `≥ i` yields a value that is not a
key, while every value in `[i, result)` is a key. -/
theorem getNextIdFrom_spec (l : List Nat) :
    ∀ i : Nat, l.Sorted (· < ·) → (∀ x ∈ l, i ≤ x) →
      i ≤ getNextIdFrom i l ∧ getNextIdFrom i l ∉ l ∧
      ∀ j, i ≤ j → j < getNextIdFrom i l → j ∈ l := by
  induction l with
  | nil =>
    intro i _ _
    refine ⟨le_refl _, by simp [getNextIdFrom], ?_⟩
    intro j h1 h2
    simp [getNextIdFrom] at h2
    omega
  | cons k rest ih =>
    intro i hs hge
    have hk : i ≤ k := hge k (by simp)
    have hrest : ∀ x ∈ rest, k < x := (List.sorted_cons.1 hs).1
    by_cases hik : i ≠ k
    · have hik' : i < k := lt_of_le_of_ne hk hik
      simp only [getNextIdFrom, if_pos hik]
      refine ⟨le_refl _, ?_, ?_⟩
      · intro hmem
        rcases List.mem_cons.1 hmem with rfl | hmem
        · exact hik rfl
        · exact absurd (hrest i hmem) (by omega)
      · intro j h1 h2
        omega
    · have hik' : i = k := by omega
      subst hik'
      simp only [getNextIdFrom, if_neg hik]
      obtain ⟨h1, h2, h3⟩ := ih (i + 1) (List.sorted_cons.1 hs).2
        (fun x hx => hrest x hx)
      refine ⟨by omega, ?_, ?_⟩
      · intro hmem
        rcases List.mem_cons.1 hmem with heq | hmem
        · omega
        · exact h2 hmem
      · intro j hij hlt
        by_cases hji : j = i
        · subst hji; exact List.mem_cons_self _ _
        · exact List.mem_cons_of_mem _ (h3 j (by omega) hlt)

/-- The "smallest missing number" characterization determines its value. -/
theorem mex_unique (pool : List Nat) (a b : Nat)
    (ha1 : a ∉ pool) (ha2 : ∀ j < a, j ∈ pool)
    (hb1 : b ∉ pool) (hb2 : ∀ j < b, j ∈ pool) : a = b := by
  by_contra hne
  rcases Nat.lt_or_ge a b with h | h
  · exact ha1 (hb2 a h)
  · exact hb1 (ha2 b (by omega))

/-- C5: on any pool state (a strictly sorted key list, as iterated from the
`BTreeMap`), `get_next_id` returns the smallest non-negative integer not
currently held, `alloc_new_generator` never returns a held id, and after
freeing id `i` from a pool holding `0..n` the next allocation returns `i`. -/
theorem id_allocation_spec (pool : List Nat) (hs : pool.Sorted (· < ·)) :
    (get_next_id pool ∉ pool ∧ ∀ j < get_next_id pool, j ∈ pool) ∧
    (alloc_new_generator pool).1 ∉ pool ∧
    (∀ n i, i < n →
      (alloc_new_generator (free_generator (List.range n) i)).1 = i) := by
  obtain ⟨_, h2, h3⟩ := getNextIdFrom_spec pool 0 hs (fun x _ => Nat.zero_le x)
  have hmex : get_next_id pool ∉ pool ∧ ∀ j < get_next_id pool, j ∈ pool :=
    ⟨h2, fun j hj => h3 j (Nat.zero_le j) hj⟩
  refine ⟨hmex, hmex.1, ?_⟩
  intro n i hi
  have hsub : List.Sublist ((List.range n).erase i) (List.range n) :=
    List.erase_sublist i _
  have hsorted : ((List.range n).erase i).Sorted (· < ·) :=
    (List.sorted_lt_range n).sublist hsub
  obtain ⟨_, e2, e3⟩ :=
    getNextIdFrom_spec ((List.range n).erase i) 0 hsorted (fun x _ => Nat.zero_le x)
  refine mex_unique ((List.range n).erase i) _ i e2
    (fun j hj => e3 j (Nat.zero_le j) hj) ?_ ?_
  · intro hmem
    exact absurd ((List.Nodup.mem_erase_iff (List.nodup_range n)).1 hmem).1
      (by simp)
  · intro j hj
    have : j ∈ List.range n := List.mem_range.2 (by omega)
    exact (List.mem_erase_of_ne (by omega)).2 this

/-- Witness for `id_allocation_spec`: the pool `[0, 1, 3]` (holding ids 0, 1
and 3) allocates the gap id 2, and freeing id 2 from `0..4` makes the next
allocation return 2. -/
theorem id_allocation_spec_witness :
    get_next_id [0, 1, 3] ∉ ([0, 1, 3] : List Nat) ∧
    (alloc_new_generator (free_generator (List.range 4) 2)).1 = 2 :=
  ⟨(id_allocation_spec [0, 1, 3] (by decide)).1.1,
   (id_allocation_spec [0, 1, 3] (by decide)).2.2 4 2 (by decide)⟩

/-! ### Stream split (claim C7) -/

/-- Lemma: `Seq.drop` of the empty sequence is empty. -/
theorem seq_drop_nil {α : Type} (n : Nat) :
    Seq.drop (Seq.nil : Seq α) n = Seq.nil := by
  induction n with
  | zero => rfl
  | succ n ih => simp only [Seq.drop, ih, Seq.tail_nil]

/-- The buffer pulled by `split_at_pull` is the stream's first `n` items. -/
theorem split_at_pull_fst {α : Type} (n : Nat) :
    ∀ s : Seq α, (split_at_pull n s).1 = Seq.take n s := by
  induction n with
  | zero => intro s; rfl
  | succ n ih =>
    intro s
    cases hs : s.destruct with
    | none =>
      rw [Seq.destruct_eq_nil hs]
      simp [split_at_pull, Seq.take, Seq.destruct_nil]
    | some p =>
      obtain ⟨x, s'⟩ := p
      rw [Seq.destruct_eq_cons hs]
      simp only [split_at_pull, Seq.take, Seq.destruct_cons, ih]

/-- The stream state left behind by `split_at_pull` is the stream with its
first `n` items dropped. -/
theorem split_at_pull_snd {α : Type} (n : Nat) :
    ∀ s : Seq α, (split_at_pull n s).2 = Seq.drop s n := by
  induction n with
  | zero => intro s; rfl
  | succ n ih =>
    intro s
    cases hs : s.destruct with
    | none =>
      rw [Seq.destruct_eq_nil hs]
      simp [split_at_pull, Seq.destruct_nil, seq_drop_nil]
    | some p =>
      obtain ⟨x, s'⟩ := p
      rw [Seq.destruct_eq_cons hs]
      simp only [split_at_pull, Seq.destruct_cons, ih]
      rw [← Seq.dropn_tail, Seq.tail_cons]

/-- Putting the pulled prefix back in front of the remaining stream restores
the original stream. -/
theorem seq_take_append_drop {α : Type} (n : Nat) :
    ∀ s : Seq α, Seq.append (Seq.ofList (Seq.take n s)) (Seq.drop s n) = s := by
  induction n with
  | zero =>
    intro s
    simp only [Seq.take, Seq.ofList_nil, Seq.nil_append, Seq.drop]
  | succ n ih =>
    intro s
    cases hs : s.destruct with
    | none =>
      rw [Seq.destruct_eq_nil hs]
      simp only [Seq.take, Seq.destruct_nil, Seq.ofList_nil, Seq.nil_append,
        seq_drop_nil]
    | some p =>
      obtain ⟨x, s'⟩ := p
      rw [Seq.destruct_eq_cons hs]
      have hdrop : Seq.drop (Seq.cons x s') (n + 1) = Seq.drop s' n := by
        rw [← Seq.dropn_tail, Seq.tail_cons]
      have htake : Seq.take (n + 1) (Seq.cons x s') = x :: Seq.take n s' := by
        simp [Seq.take, Seq.destruct_cons]
      rw [htake, hdrop, Seq.ofList_cons, Seq.cons_append, ih]

/-- Lemma: `Seq.take` on a list-backed sequence is `List.take`. -/
theorem seq_take_ofList {α : Type} (n : Nat) :
    ∀ l : List α, Seq.take n (Seq.ofList l) = l.take n := by
  induction n with
  | zero => intro l; rfl
  | succ n ih =>
    intro l
    cases l with
    | nil => simp [Seq.take, Seq.ofList_nil, Seq.destruct_nil]
    | cons a l' =>
      rw [Seq.ofList_cons]
      simp [Seq.take, Seq.destruct_cons, ih]

/-- Lemma: `Seq.get?` after `Seq.drop` indexes into the original sequence. -/
theorem seq_get_drop {α : Type} (n : Nat) :
    ∀ (s : Seq α) (k : Nat), (Seq.drop s n).get? k = s.get? (n + k) := by
  induction n with
  | zero => intro s k; rw [Nat.zero_add]; rfl
  | succ n ih =>
    intro s k
    show (Seq.tail (Seq.drop s n)).get? k = _
    rw [Seq.get?_tail, ih]
    congr 1
    omega

/-- Lemma: `Seq.drop` on a list-backed sequence is `List.drop`. -/
theorem seq_drop_ofList {α : Type} (n : Nat) (l : List α) :
    Seq.drop (Seq.ofList l) n = Seq.ofList (l.drop n) := by
  apply Seq.ext
  intro k
  rw [seq_get_drop, Seq.ofList_get, Seq.ofList_get, List.get?_eq_getElem?,
    List.get?_eq_getElem?, List.getElem?_drop]

/-- C7: `Generator::split_at(n)` returns a head generator over the first
`min(n, length)` items of the stream (the `k`-th pulled item is the stream's
`k`-th item for `k < n`, and nothing more is pulled) and a tail generator
over the remaining stream; both keep the original id and Global reference;
and appending head output and tail output restores the original sequence.
In particular, `split_at(3)` on a generator of `[1,2,3,4,5]` yields head
`[1,2,3]` and tail `[4,5]`. -/
theorem generator_split_at_spec {α : Type} (g : Generator (Seq α)) (n : Nat) :
    ((g.split_at n).1.id = g.id ∧ (g.split_at n).1.global = g.global ∧
     (g.split_at n).2.id = g.id ∧ (g.split_at n).2.global = g.global) ∧
    (g.split_at n).1.seq = Seq.ofList (Seq.take n g.seq) ∧
    (∀ k, (Seq.take n g.seq)[k]? = if k < n then g.seq.get? k else none) ∧
    (g.split_at n).2.seq = Seq.drop g.seq n ∧
    Seq.append (g.split_at n).1.seq (g.split_at n).2.seq = g.seq ∧
    (∀ id glob,
      ((Generator.new_with_id id glob
          (Seq.ofList [1, 2, 3, 4, 5])).split_at 3).1.seq
          = Seq.ofList [1, 2, 3] ∧
      ((Generator.new_with_id id glob
          (Seq.ofList [1, 2, 3, 4, 5])).split_at 3).2.seq
          = Seq.ofList ([4, 5] : List Nat)) := by
  refine ⟨⟨rfl, rfl, rfl, rfl⟩, ?_, ?_, ?_, ?_, ?_⟩
  · show Seq.ofList (split_at_pull n g.seq).1 = _
    rw [split_at_pull_fst]
  · intro k
    exact Seq.getElem?_take k n g.seq
  · show (split_at_pull n g.seq).2 = _
    rw [split_at_pull_snd]
  · show Seq.append (Seq.ofList (split_at_pull n g.seq).1) (split_at_pull n g.seq).2 = _
    rw [split_at_pull_fst, split_at_pull_snd, seq_take_append_drop]
  · intro id glob
    constructor
    · show Seq.ofList (split_at_pull 3 (Seq.ofList [1, 2, 3, 4, 5])).1 = _
      rw [split_at_pull_fst, seq_take_ofList]
      rfl
    · show (split_at_pull 3 (Seq.ofList [1, 2, 3, 4, 5])).2 = _
      rw [split_at_pull_snd, seq_drop_ofList]
      rfl

/-! ### Generator combinators (claim C8) -/

/-- C8: `map`, `filter` and `take` each return a new Generator with the same
id and Global reference whose sequence is the transformed one; and the
pipeline `map(x => x+2)` then `filter(x => x%3==0)` then `take(5)` over the
source `1, 2, 3, …` yields `[3, 6, 9, 12, 15]` — stated over every finite
materialization of at least 15 items of the infinite source, which shows the
output is independent of how much of the source is materialized. -/
theorem generator_transform_spec {α : Type} :
    (∀ (g : Generator (List α)) (f : α → α),
      (g.map f).id = g.id ∧ (g.map f).global = g.global ∧
      (g.map f).seq = g.seq.map f) ∧
    (∀ (g : Generator (List α)) (p : α → Bool),
      (g.filter p).id = g.id ∧ (g.filter p).global = g.global ∧
      (g.filter p).seq = g.seq.filter p) ∧
    (∀ (g : Generator (List α)) (n : Nat),
      (g.take n).id = g.id ∧ (g.take n).global = g.global ∧
      (g.take n).seq = g.seq.take n) ∧
    (∀ (id glob m : Nat), 15 ≤ m →
      ((((Generator.new_with_id id glob (List.range' 1 m)).map (· + 2)).filter
          (· % 3 == 0)).take 5).seq = [3, 6, 9, 12, 15]) := by
  refine ⟨fun g f => ⟨rfl, rfl, rfl⟩, fun g p => ⟨rfl, rfl, rfl⟩,
    fun g n => ⟨rfl, rfl, rfl⟩, ?_⟩
  intro id glob m hm
  show (((List.range' 1 m).map (· + 2)).filter (· % 3 == 0)).take 5 = _
  rw [show ((· + 2) : Nat → Nat) = (2 + ·) from funext fun x => Nat.add_comm x 2,
    List.map_add_range']
  rw [show m = m - 15 + 15 from by omega, ← List.range'_append_1,
    List.filter_append]
  rw [show List.filter (· % 3 == 0) (List.range' (2 + 1) 15) = [3, 6, 9, 12, 15]
    from by decide]
  exact List.take_left' rfl

/-- Witness for `generator_transform_spec`, at the repository's own test
materialization of 50 items. -/
theorem generator_transform_spec_witness :
    ((((Generator.new_with_id 0 0 (List.range' 1 50)).map (· + 2)).filter
        (· % 3 == 0)).take 5).seq = [3, 6, 9, 12, 15] :=
  (generator_transform_spec (α := Nat)).2.2.2 0 0 50 (by decide)

/-! ### GeneratorGroup Chain strategy (claim C9) -/

/-- C9: a `GeneratorGroup` under the Chain strategy emits the full output of
its generators in the order supplied — for two generators, all of generator
1's items then all of generator 2's; for generators producing `[1,2,3]` and
`[4,5]` the collected output is `[1,2,3,4,5]`. -/
theorem generator_group_chain_spec {α : Type} (g1 g2 : Generator (List α)) :
    GeneratorGroup.collectChain ⟨[g1, g2]⟩ = g1.seq ++ g2.seq ∧
    GeneratorGroup.collectChain
        ⟨[Generator.new_with_id 0 0 [1, 2, 3],
          Generator.new_with_id 1 0 ([4, 5] : List Nat)]⟩ = [1, 2, 3, 4, 5] := by
  constructor
  · simp [GeneratorGroup.collectChain]
  · rfl

/-! ### Checker verdict round-trip (claim C10) -/

/-- C10: serializing a `ValidType` yields `true` for `True`, `false` for
`False`, and the string `":unknown"` for `Unknown`; deserializing any of
these yields the original variant; deserializing any other string fails with
"invalid string value"; and deserializing any value that is neither a boolean
nor a string fails with "invalid type". -/
theorem validtype_serde_roundtrip :
    (∀ v : ValidType, ValidType.deserialize (ValidType.serialize v) = .ok v) ∧
    ValidType.serialize .True = .bool true ∧
    ValidType.serialize .False = .bool false ∧
    ValidType.serialize .Unknown = .str ":unknown" ∧
    (∀ s : String, s ≠ ":unknown" →
      ValidType.deserialize (.str s) = .error "invalid string value") ∧
    (∀ j : JsonValue, j.isBoolOrStr = false →
      ValidType.deserialize j = .error "invalid type") := by
  refine ⟨?_, rfl, rfl, rfl, ?_, ?_⟩
  · intro v
    cases v <;> rfl
  · intro s hs
    simp [ValidType.deserialize, hs]
  · intro j hj
    cases j <;> simp_all [JsonValue.isBoolOrStr, ValidType.deserialize]

/-- Witness for `validtype_serde_roundtrip` at concrete inputs. -/
theorem validtype_serde_roundtrip_witness :
    ValidType.deserialize (ValidType.serialize .Unknown) = .ok .Unknown ∧
    ValidType.deserialize (.str "nope") = .error "invalid string value" ∧
    ValidType.deserialize .null = .error "invalid type" :=
  ⟨validtype_serde_roundtrip.1 .Unknown,
   validtype_serde_roundtrip.2.2.2.2.1 "nope" (by decide),
   validtype_serde_roundtrip.2.2.2.2.2 .null rfl⟩

end JepsenRs
